import Mathlib

/-!
Verification of the chunking / document-typing / insertion logic of
`setup.py` (AI_Compliance_Auditor).  Python strings are modelled as lists
of characters (`Str := List Char`); the functions below are direct
translations of the corresponding Python code.
-/

namespace Setup

/-- Strings are modelled as lists of characters. -/
abbrev Str := List Char

/-- Whitespace characters stripped by Python's `str.strip()` (ASCII set:
space, tab, newline, carriage return, vertical tab, form feed). -/
def isSpace (c : Char) : Bool :=
  c = ' ' || c = '\t' || c = '\n' || c = '\r' || c = '\x0b' || c = '\x0c'

/-- Removes leading whitespace (left part of Python's `str.strip()`). -/
def lstrip (s : Str) : Str := s.dropWhile isSpace

/-- Removes trailing whitespace (right part of Python's `str.strip()`). -/
def rstrip (s : Str) : Str := (s.reverse.dropWhile isSpace).reverse

/-- Python's `str.strip()`: removes leading and trailing whitespace. -/
def strip (s : Str) : Str := rstrip (lstrip s)

/-- Python's `text.split("\n")`: splits on every newline, keeping empty
pieces; the empty string yields `[""]`. -/
def splitNl : Str → List Str
  | [] => [[]]
  | c :: t =>
    if c = '\n' then [] :: splitNl t
    else
      match splitNl t with
      | [] => [[c]]
      | h :: r => (c :: h) :: r

/-- Joins lines back, appending a newline after every line; this is exactly
the accumulated `current` of the chunking loop (`current += line + "\n"`). -/
def joinNl (ls : List Str) : Str := ls.foldr (fun l r => l ++ '\n' :: r) []

/-- Python's `txt_file.name.replace(".", "_")` (`safe_name` in `setup.py`). -/
def safeName (fname : Str) : Str := fname.map (fun c => if c = '.' then '_' else c)

/-- Decimal representation of a natural number, as a character list. -/
def natStr (n : Nat) : Str := (Nat.repr n).toList

/-- Python's f-string `f"{safe_name}_{chunk_idx}"` from `setup.py`. -/
def mkChunkId (fname : Str) (idx : Nat) : Str := safeName fname ++ '_' :: natStr idx

/-- Core chunking loop of `setup.py` (lines 73-98): iterate over the lines,
accumulate `current += line + "\n"`, flush when `len(current) >= size`
(appending `current.strip()` and incrementing `chunk_idx` only when the
stripped chunk is non-empty), and after the loop flush the non-empty
leftover at the current `chunk_idx`.  Returns `(chunk_text, chunk_idx)`
pairs. -/
def chunkStep (size : Nat) : List Str → Str → Nat → List (Str × Nat)
  | [], current, idx =>
    if strip current = [] then [] else [(strip current, idx)]
  | l :: ls, current, idx =>
    let cur := current ++ l ++ ['\n']
    if size ≤ cur.length then
      if strip cur = [] then chunkStep size ls [] idx
      else (strip cur, idx) :: chunkStep size ls [] (idx + 1)
    else chunkStep size ls cur idx

/-- Chunks (with their `chunk_idx`) produced for one document text. -/
def chunkPairs (size : Nat) (text : Str) : List (Str × Nat) :=
  chunkStep size (splitNl text) [] 0

/-- The chunk texts, in order (Python list `chunks`). -/
def chunkTexts (size : Nat) (text : Str) : List Str :=
  (chunkPairs size text).map Prod.fst

/-- The chunk ids, in order (Python list `ids`): each appended id is
`f"{safe_name}_{chunk_idx}"` at the chunk's `chunk_idx`. -/
def chunkIds (size : Nat) (fname : Str) (text : Str) : List Str :=
  (chunkPairs size text).map (fun p => mkChunkId fname p.2)

/-- Python's `x in y` substring test on strings. -/
def strIn (needle : Str) : Str → Bool
  | [] => needle.isEmpty
  | c :: t => needle.isPrefixOf (c :: t) || strIn needle t

/-- ASCII lowercasing of one character (model of Python `str.lower()` per
character). -/
def lowerChar (c : Char) : Char :=
  if 'A' ≤ c && c ≤ 'Z' then Char.ofNat (c.toNat + 32) else c

/-- Python's `filename.lower()`. -/
def lower (s : Str) : Str := s.map lowerChar

/-- Direct translation of `infer_doc_type` (setup.py lines 22-27). -/
def infer_doc_type (filename : Str) : Str :=
  let f := lower filename
  if strIn "gdpr".toList f then "GDPR".toList
  else if strIn "hipaa".toList f then "HIPAA".toList
  else if strIn "soc2".toList f then "SOC2".toList
  else "General".toList

/-- Insertion loop of `setup.py` (lines 102-116): for each index `i` in
order, try `collection.add`; on success increment `inserted` and record the
chunk as stored, on failure print a warning and skip the chunk.  The
success or failure of the external `collection.add` call is abstracted by
the oracle `addOk`.  Returns `(inserted, stored chunks, skipped indices)`. -/
def insertChunksAux (addOk : Nat → Bool) : Nat → List Str → Nat × List Str × List Nat
  | _, [] => (0, [], [])
  | i, c :: cs =>
    let r := insertChunksAux addOk (i + 1) cs
    if addOk i then (r.1 + 1, c :: r.2.1, r.2.2) else (r.1, r.2.1, i :: r.2.2)

/-- Runs the insertion loop from index 0 over the whole chunk list. -/
def insertChunks (chunks : List Str) (addOk : Nat → Bool) : Nat × List Str × List Nat :=
  insertChunksAux addOk 0 chunks

/-- Spec-side description (C1 wording): group the document's lines
greedily, closing a group as soon as the accumulated character count (each
line plus its appended newline) reaches `size`; the trailing remainder
forms the final group. -/
def specGroups (size : Nat) : List Str → List Str → List (List Str)
  | [], pend => [pend]
  | l :: ls, pend =>
    let pend2 := pend ++ [l]
    if size ≤ (joinNl pend2).length then pend2 :: specGroups size ls []
    else specGroups size ls pend2

/-- Spec-side description (C1 wording): the chunk texts are the groups'
accumulated texts with surrounding whitespace trimmed, dropping every
chunk that is empty after trimming. -/
def chunkTextsSpec (size : Nat) (text : Str) : List Str :=
  ((specGroups size (splitNl text) []).map (fun g => strip (joinNl g))).filter
    (fun c => decide (c ≠ []))

theorem splitNl_ne_nil (s : Str) : splitNl s ≠ [] := by
  cases s with
  | nil => simp [splitNl]
  | cons c t =>
    simp only [splitNl]
    split
    · simp
    · cases h : splitNl t <;> simp

theorem joinNl_nil : joinNl [] = [] := rfl

theorem joinNl_cons (l : Str) (ls : List Str) :
    joinNl (l :: ls) = l ++ '\n' :: joinNl ls := rfl

theorem joinNl_append (a b : List Str) :
    joinNl (a ++ b) = joinNl a ++ joinNl b := by
  induction a with
  | nil => rfl
  | cons l ls ih => simp [joinNl_cons, ih]

theorem joinNl_splitNl (s : Str) : joinNl (splitNl s) = s ++ ['\n'] := by
  induction s with
  | nil => rfl
  | cons c t ih =>
    by_cases hc : c = '\n'
    · subst hc
      simp [splitNl, joinNl_cons, ih]
    · simp only [splitNl, if_neg hc]
      rcases h : splitNl t with _ | ⟨h1, r⟩
      · exact absurd h (splitNl_ne_nil t)
      · rw [h] at ih
        simp [joinNl_cons] at ih ⊢
        exact ih

theorem length_dropWhile_le {α : Type} (p : α → Bool) (l : List α) :
    (l.dropWhile p).length ≤ l.length := by
  induction l with
  | nil => simp
  | cons a t ih =>
    rw [List.dropWhile_cons]
    split
    · exact Nat.le_succ_of_le ih
    · simp

theorem rstrip_append_space (a : Char) (s : Str) (h : isSpace a = true) :
    rstrip (s ++ [a]) = rstrip s := by
  simp [rstrip, List.dropWhile_cons, h]

theorem rstrip_cons_of_nonspace (c : Char) (t : Str) (h : isSpace c = false) :
    rstrip (c :: t) = c :: rstrip t := by
  unfold rstrip
  rw [List.reverse_cons, List.dropWhile_append]
  split
  · next hempty =>
    rw [List.isEmpty_iff] at hempty
    simp [List.dropWhile_cons, h, hempty]
  · simp [List.reverse_append]

theorem strip_append_space (s : Str) (a : Char) (h : isSpace a = true) :
    strip (s ++ [a]) = strip s := by
  unfold strip lstrip
  rw [List.dropWhile_append]
  split
  · next he =>
    rw [List.isEmpty_iff] at he
    simp [List.dropWhile_cons, h, he]
  · exact rstrip_append_space a _ h

theorem lstrip_rstrip (u : Str) (h : lstrip u = u) :
    lstrip (rstrip u) = rstrip u := by
  cases u with
  | nil => rfl
  | cons c t =>
    have hc : ¬ isSpace c = true := by
      have := List.dropWhile_eq_self_iff.mp h
      simpa using this (by simp)
    rw [Bool.not_eq_true] at hc
    rw [rstrip_cons_of_nonspace c t hc]
    unfold lstrip
    rw [List.dropWhile_cons, if_neg (by simp [hc])]

theorem rstrip_idem (s : Str) : rstrip (rstrip s) = rstrip s := by
  unfold rstrip
  rw [List.reverse_reverse, List.dropWhile_idempotent]

theorem strip_idem (s : Str) : strip (strip s) = strip s := by
  unfold strip
  have h : lstrip (lstrip s) = lstrip s := List.dropWhile_idempotent _ _
  rw [lstrip_rstrip (lstrip s) h, rstrip_idem]

/-- Keeps exactly the non-whitespace characters of a string. -/
def nonSpace (c : Char) : Bool := !isSpace c

theorem filter_dropWhile_space (s : Str) :
    (s.dropWhile isSpace).filter nonSpace = s.filter nonSpace := by
  induction s with
  | nil => rfl
  | cons c t ih =>
    by_cases hc : isSpace c = true
    · rw [List.dropWhile_cons, if_pos hc, ih, List.filter_cons]
      simp [nonSpace, hc]
    · rw [List.dropWhile_cons, if_neg hc]

theorem filter_strip (s : Str) :
    (strip s).filter nonSpace = s.filter nonSpace := by
  unfold strip rstrip lstrip
  rw [List.filter_reverse, filter_dropWhile_space, List.filter_reverse,
    List.reverse_reverse, filter_dropWhile_space]

theorem chunkStep_map_fst (size : Nat) (ls : List Str) :
    ∀ (pend : List Str) (idx : Nat),
      (chunkStep size ls (joinNl pend) idx).map Prod.fst
        = ((specGroups size ls pend).map (fun g => strip (joinNl g))).filter
            (fun c => decide (c ≠ [])) := by
  induction ls with
  | nil =>
    intro pend idx
    simp only [chunkStep, specGroups, List.map_cons, List.map_nil,
      List.filter_cons, List.filter_nil]
    by_cases h : strip (joinNl pend) = []
    · simp [h]
    · simp [h]
  | cons l ls ih =>
    intro pend idx
    simp only [chunkStep, specGroups]
    have hj : joinNl pend ++ l ++ ['\n'] = joinNl (pend ++ [l]) := by
      rw [joinNl_append, joinNl_cons, joinNl_nil, List.append_assoc]
    rw [hj]
    by_cases hsz : size ≤ (joinNl (pend ++ [l])).length
    · rw [if_pos hsz, if_pos hsz]
      by_cases hstrip : strip (joinNl (pend ++ [l])) = []
      · rw [if_pos hstrip]
        have h1 := ih [] idx
        rw [joinNl_nil] at h1
        rw [h1]
        simp [List.filter_cons, hstrip]
      · rw [if_neg hstrip]
        have h1 := ih [] (idx + 1)
        rw [joinNl_nil] at h1
        simp [List.filter_cons, hstrip, h1]
    · rw [if_neg hsz, if_neg hsz]
      exact ih (pend ++ [l]) idx

theorem chunkStep_map_snd (size : Nat) (ls : List Str) :
    ∀ (cur : Str) (idx : Nat),
      (chunkStep size ls cur idx).map Prod.snd
        = List.range' idx (chunkStep size ls cur idx).length := by
  induction ls with
  | nil =>
    intro cur idx
    by_cases h : strip cur = []
    · simp [chunkStep, h]
    · simp [chunkStep, h, List.range'_succ]
  | cons l ls ih =>
    intro cur idx
    simp only [chunkStep]
    by_cases hsz : size ≤ (cur ++ l ++ ['\n']).length
    · rw [if_pos hsz]
      by_cases hstrip : strip (cur ++ l ++ ['\n']) = []
      · rw [if_pos hstrip]
        exact ih [] idx
      · rw [if_neg hstrip]
        simp only [List.map_cons, List.length_cons, List.range'_succ]
        rw [ih [] (idx + 1)]
    · rw [if_neg hsz]
      exact ih (cur ++ l ++ ['\n']) idx

theorem chunkStep_mem (size : Nat) (ls : List Str) :
    ∀ (cur : Str) (idx : Nat) (p : Str × Nat), p ∈ chunkStep size ls cur idx →
      strip p.1 = p.1 ∧ p.1 ≠ [] := by
  induction ls with
  | nil =>
    intro cur idx p hp
    by_cases h : strip cur = []
    · simp [chunkStep, h] at hp
    · simp [chunkStep, h] at hp
      rw [hp]
      exact ⟨strip_idem cur, h⟩
  | cons l ls ih =>
    intro cur idx p hp
    simp only [chunkStep] at hp
    by_cases hsz : size ≤ (cur ++ l ++ ['\n']).length
    · rw [if_pos hsz] at hp
      by_cases hstrip : strip (cur ++ l ++ ['\n']) = []
      · rw [if_pos hstrip] at hp
        exact ih [] idx p hp
      · rw [if_neg hstrip] at hp
        rcases List.mem_cons.mp hp with h1 | h1
        · rw [h1]
          exact ⟨strip_idem _, hstrip⟩
        · exact ih [] (idx + 1) p h1
    · rw [if_neg hsz] at hp
      exact ih (cur ++ l ++ ['\n']) idx p hp

theorem specGroups_flatten (size : Nat) (ls : List Str) :
    ∀ pend, (specGroups size ls pend).flatten = pend ++ ls := by
  induction ls with
  | nil =>
    intro pend
    simp [specGroups]
  | cons l ls ih =>
    intro pend
    simp only [specGroups]
    by_cases hsz : size ≤ (joinNl (pend ++ [l])).length
    · rw [if_pos hsz, List.flatten_cons, ih []]
      simp
    · rw [if_neg hsz, ih (pend ++ [l])]
      simp

theorem joinNl_flatten (gs : List (List Str)) :
    joinNl gs.flatten = (gs.map joinNl).flatten := by
  induction gs with
  | nil => rfl
  | cons g gs ih => simp [List.flatten_cons, joinNl_append, ih]

/-- C2: chunking the text `"A\nB\nC\n"` with `target_size = 3` (and no
overlap, as in the source) produces exactly the two chunks
`["A\nB", "C"]`, in that order. -/
theorem chunk_boundary_example :
    chunkTexts 3 ("A\nB\nC\n".toList) = ["A\nB".toList, "C".toList] := by
  decide

/-- C7 counterexample: the filename `"xgdpr_hipaa.txt"` contains the
substring `"hipaa"`, so the claim says `infer_doc_type` returns
`"HIPAA"` on it; the code returns `"GDPR"` (the `gdpr` check is tested
first, on the lowercased name). -/
theorem infer_doc_type_claim_false :
    strIn ("hipaa".toList) ("xgdpr_hipaa.txt".toList) = true ∧
    infer_doc_type ("xgdpr_hipaa.txt".toList) = "GDPR".toList ∧
    ("GDPR".toList : Str) ≠ "HIPAA".toList := by
  decide

/-- C8: chunk ids are not injective across documents: the distinct
filenames `"a.b.txt"` and `"a_b.txt"` map to the same `safe_name`
`"a_b_txt"`, hence every text receives identical chunk-id sequences under
either filename; concretely, `"hello"` at `target_size = 3` gets the
single id `"a_b_txt_0"` from both. -/
theorem chunk_id_collision :
    ("a.b.txt".toList : Str) ≠ "a_b.txt".toList ∧
    (∀ size text, chunkIds size ("a.b.txt".toList) text
        = chunkIds size ("a_b.txt".toList) text) ∧
    chunkIds 3 ("a.b.txt".toList) ("hello".toList) = ["a_b_txt_0".toList] := by
  refine ⟨by decide, ?_, by decide⟩
  intro size text
  have h : safeName ("a.b.txt".toList) = safeName ("a_b.txt".toList) := by decide
  simp [chunkIds, mkChunkId, h]
  exact fun a b _ => h

/-- C1: for every text and target size (the source has no overlap), the
chunker equals its specification: split on line boundaries, accumulate
lines (newlines included in the count) until the running length reaches
`target_size`, close the chunk trimmed of surrounding whitespace, drop a
closed chunk that is empty after trimming, and emit the final remainder
as the last chunk exactly when it is non-empty after trimming. -/
theorem chunker_matches_spec (size : Nat) (text : Str) :
    chunkTexts size text = chunkTextsSpec size text := by
  have h := chunkStep_map_fst size (splitNl text) [] 0
  rw [joinNl_nil] at h
  exact h

/-- C10: chunking loses no content: the groups underlying the chunks
partition the document's lines into consecutive runs in original order,
the chunk texts are exactly the trimmed group texts with all-whitespace
groups dropped, and concatenating all chunk texts preserves the input's
sequence of non-whitespace characters. -/
theorem chunker_preserves_content (size : Nat) (text : Str) :
    (specGroups size (splitNl text) []).flatten = splitNl text ∧
    chunkTexts size text
      = ((specGroups size (splitNl text) []).map (fun g => strip (joinNl g))).filter
          (fun c => decide (c ≠ [])) ∧
    ((chunkTexts size text).flatten.filter nonSpace = text.filter nonSpace) := by
  have hpart : (specGroups size (splitNl text) []).flatten = splitNl text := by
    simpa using specGroups_flatten size (splitNl text) []
  have heq : chunkTexts size text
      = ((specGroups size (splitNl text) []).map (fun g => strip (joinNl g))).filter
          (fun c => decide (c ≠ [])) := by
    have h := chunkStep_map_fst size (splitNl text) [] 0
    rw [joinNl_nil] at h
    exact h
  refine ⟨hpart, heq, ?_⟩
  rw [heq, List.flatten_filter_ne_nil, List.filter_flatten, List.map_map]
  have hfun : (List.filter nonSpace ∘ fun g => strip (joinNl g))
      = fun g => (joinNl g).filter nonSpace := by
    funext g
    exact filter_strip (joinNl g)
  rw [hfun]
  have hfun2 : (fun g => (joinNl g).filter nonSpace)
      = (List.filter nonSpace ∘ joinNl) := rfl
  rw [hfun2, ← List.map_map, ← List.filter_flatten, ← joinNl_flatten, hpart,
    joinNl_splitNl, List.filter_append]
  simp [nonSpace, isSpace]

/-- C3: chunking is deterministic (it is a pure function of the text and
parameters: two runs on identical inputs give identical chunk texts and
ids), and the chunk ids are derived purely from the source filename and
the chunk's sequence index 0, 1, ..., n-1. -/
theorem chunking_deterministic (size : Nat) (fname text : Str) :
    (chunkTexts size text, chunkIds size fname text)
      = (chunkTexts size text, chunkIds size fname text) ∧
    chunkIds size fname text
      = (List.range (chunkTexts size text).length).map (mkChunkId fname) := by
  refine ⟨rfl, ?_⟩
  have hsnd := chunkStep_map_snd size (splitNl text) [] 0
  simp only [chunkIds, chunkTexts, chunkPairs, List.length_map,
    List.range_eq_range']
  rw [show (fun p : Str × Nat => mkChunkId fname p.2)
        = (mkChunkId fname) ∘ Prod.snd from rfl]
  rw [← List.map_map, hsnd]

/-- C6: every chunk text produced by the chunker is non-empty after
trimming (it is its own trim and has `char_count ≥ 1`), and the sequence
indices of a document's chunks are exactly 0, 1, ..., n-1 in order, with
no gaps and no duplicates. -/
theorem chunk_invariants (size : Nat) (text : Str) :
    (∀ c ∈ chunkTexts size text, strip c = c ∧ 1 ≤ c.length) ∧
    (chunkPairs size text).map Prod.snd = List.range (chunkPairs size text).length := by
  constructor
  · intro c hc
    simp only [chunkTexts, List.mem_map] at hc
    obtain ⟨p, hp, hpc⟩ := hc
    obtain ⟨h1, h2⟩ := chunkStep_mem size (splitNl text) [] 0 p hp
    subst hpc
    exact ⟨h1, List.length_pos.mpr h2⟩
  · rw [List.range_eq_range']
    exact chunkStep_map_snd size (splitNl text) [] 0

/-- Witness for C6 at a concrete input: the first chunk of `"A\nB\nC\n"`
at `target_size = 3` is its own trim and has at least one character. -/
theorem chunk_invariants_witness :
    strip ("A\nB".toList) = "A\nB".toList ∧ 1 ≤ ("A\nB".toList : Str).length :=
  (chunk_invariants 3 ("A\nB\nC\n".toList)).1 ("A\nB".toList) (by decide)

theorem splitNl_of_no_newline (s : Str) (h : '\n' ∉ s) : splitNl s = [s] := by
  induction s with
  | nil => rfl
  | cons c t ih =>
    have hc : ¬ c = '\n' := fun hh => h (hh ▸ List.mem_cons_self c t)
    have ht : '\n' ∉ t := fun hm => h (List.mem_cons_of_mem c hm)
    simp only [splitNl, if_neg hc, ih ht]

/-- C4: edge cases of the chunker: the empty text yields the empty chunk
sequence (no error), and a text that is a single line with no surrounding
whitespace and longer than `target_size` is emitted whole as one oversized
chunk, neither truncated nor an error. -/
theorem chunker_edge_cases (size : Nat) :
    chunkTexts size [] = [] ∧
    ∀ line : Str, '\n' ∉ line → strip line = line → size < line.length →
      chunkTexts size line = [line] := by
  constructor
  · simp only [chunkTexts, chunkPairs, splitNl]
    have h1 : strip (['\n'] : Str) = [] := by decide
    have h2 : strip ([] : Str) = [] := by decide
    by_cases h : size ≤ 1
    · simp [chunkStep, h, h1, h2]
    · simp [chunkStep, h, h1, h2]
  · intro line hnl hstrip hsz
    have hsplit : splitNl line = [line] := splitNl_of_no_newline line hnl
    have hlen : size ≤ (([] : Str) ++ line ++ ['\n']).length := by
      simp
      omega
    have hs : strip (([] : Str) ++ line ++ ['\n']) = line := by
      rw [List.nil_append, strip_append_space line '\n' (by decide), hstrip]
    have hne : line ≠ [] := by
      intro hl
      rw [hl] at hsz
      simp at hsz
    simp only [chunkTexts, chunkPairs, hsplit, chunkStep, if_pos hlen, hs,
      if_neg hne]
    rw [if_pos (by decide : strip ([] : Str) = [])]
    rfl

/-- Witness for C4 at a concrete input: the single 5-character line
`"ABCDE"` at `target_size = 3` becomes one oversized chunk. -/
theorem chunker_edge_cases_witness :
    chunkTexts 3 ("ABCDE".toList) = ["ABCDE".toList] :=
  (chunker_edge_cases 3).2 ("ABCDE".toList) (by decide) (by decide) (by decide)

theorem insertChunksAux_all_ok (addOk : Nat → Bool) (cs : List Str) :
    ∀ s : Nat, (∀ i, s ≤ i → i < s + cs.length → addOk i = true) →
      insertChunksAux addOk s cs = (cs.length, cs, []) := by
  induction cs with
  | nil =>
    intro s _
    rfl
  | cons c cs ih =>
    intro s h
    have hs : addOk s = true := h s le_rfl (by simp)
    have hrest := ih (s + 1) (fun i h1 h2 => h i (by omega) (by simp at h2 ⊢; omega))
    simp [insertChunksAux, hrest, hs]

theorem insertChunksAux_one_fail (addOk : Nat → Bool) (j : Nat) (cs : List Str) :
    ∀ s : Nat, s ≤ j → j < s + cs.length →
      (∀ i, s ≤ i → i < s + cs.length → (addOk i = false ↔ i = j)) →
      insertChunksAux addOk s cs = (cs.length - 1, cs.eraseIdx (j - s), [j]) := by
  induction cs with
  | nil =>
    intro s h1 h2 _
    simp at h2
    omega
  | cons c cs ih =>
    intro s hsj hj h
    by_cases hs : s = j
    · subst hs
      have hf : addOk s = false := (h s le_rfl (by simp)).mpr rfl
      have hrest : insertChunksAux addOk (s + 1) cs = (cs.length, cs, []) := by
        refine insertChunksAux_all_ok addOk cs (s + 1) (fun i h1 h2 => ?_)
        by_contra hc
        rw [Bool.not_eq_true] at hc
        have := (h i (by omega) (by simp at h2 ⊢; omega)).mp hc
        omega
      simp [insertChunksAux, hrest, hf, List.eraseIdx]
    · have hlt : s < j := Nat.lt_of_le_of_ne hsj hs
      have ht : addOk s = true := by
        by_contra hc
        rw [Bool.not_eq_true] at hc
        exact hs ((h s le_rfl (by simp)).mp hc)
      have hj' : j < (s + 1) + cs.length := by
        simp at hj
        omega
      have hrec := ih (s + 1) (by omega) hj'
        (fun i h1 h2 => h i (by omega) (by simp at h2 ⊢; omega))
      have hlen : 1 ≤ cs.length := by
        simp at hj'
        omega
      have hidx : j - s = (j - (s + 1)) + 1 := by omega
      simp [insertChunksAux, hrec, ht, hidx, List.eraseIdx]
      omega

/-- C5: per-chunk failure isolation in the insertion loop: if the store's
add operation fails for exactly one position `j` out of `n` chunks and
succeeds elsewhere, the loop still stores every other chunk (in order),
reports `inserted = n - 1`, and skips exactly position `j`; no failure
aborts the loop. -/
theorem insert_partial_failure (chunks : List Str) (addOk : Nat → Bool) (j : Nat)
    (hj : j < chunks.length)
    (h : ∀ i, i < chunks.length → (addOk i = false ↔ i = j)) :
    (insertChunks chunks addOk).1 = chunks.length - 1 ∧
    (insertChunks chunks addOk).2.1 = chunks.eraseIdx j ∧
    (insertChunks chunks addOk).2.2 = [j] := by
  have hmain := insertChunksAux_one_fail addOk j chunks 0 (Nat.zero_le j)
    (by omega) (fun i _ h2 => h i (by omega))
  unfold insertChunks
  rw [hmain]
  simp

/-- Witness for C5 at a concrete input: with three chunks and the add
operation failing only at position 1, two chunks are stored, position 1 is
skipped. -/
theorem insert_partial_failure_witness :
    (insertChunks ["a".toList, "b".toList, "c".toList]
        (fun i => decide (i ≠ 1))).1 = 2 ∧
    (insertChunks ["a".toList, "b".toList, "c".toList]
        (fun i => decide (i ≠ 1))).2.1 = ["a".toList, "c".toList] ∧
    (insertChunks ["a".toList, "b".toList, "c".toList]
        (fun i => decide (i ≠ 1))).2.2 = [1] := by
  have h := insert_partial_failure ["a".toList, "b".toList, "c".toList]
    (fun i => decide (i ≠ 1)) 1 (by decide) (by decide)
  simpa using h

/-- C7 (amended): `infer_doc_type` matches on the lowercased filename, in
the fixed order gdpr, hipaa, soc2: it returns `"GDPR"` when the lowercased
filename contains `"gdpr"`, else `"HIPAA"` when it contains `"hipaa"`,
else `"SOC2"` when it contains `"soc2"`, and `"General"` otherwise. -/
theorem infer_doc_type_ordered_lower (fname : Str) :
    (strIn ("gdpr".toList) (lower fname) = true →
        infer_doc_type fname = "GDPR".toList) ∧
    (strIn ("gdpr".toList) (lower fname) = false →
      strIn ("hipaa".toList) (lower fname) = true →
        infer_doc_type fname = "HIPAA".toList) ∧
    (strIn ("gdpr".toList) (lower fname) = false →
      strIn ("hipaa".toList) (lower fname) = false →
        strIn ("soc2".toList) (lower fname) = true →
          infer_doc_type fname = "SOC2".toList) ∧
    (strIn ("gdpr".toList) (lower fname) = false →
      strIn ("hipaa".toList) (lower fname) = false →
        strIn ("soc2".toList) (lower fname) = false →
          infer_doc_type fname = "General".toList) := by
  unfold infer_doc_type
  refine ⟨fun h1 => by rw [if_pos h1], fun h1 h2 => ?_, fun h1 h2 h3 => ?_,
    fun h1 h2 h3 => ?_⟩
  · have h1' : ¬ strIn ("gdpr".toList) (lower fname) = true := by
      rw [h1]
      simp
    rw [if_neg h1', if_pos h2]
  · have h1' : ¬ strIn ("gdpr".toList) (lower fname) = true := by
      rw [h1]
      simp
    have h2' : ¬ strIn ("hipaa".toList) (lower fname) = true := by
      rw [h2]
      simp
    rw [if_neg h1', if_neg h2', if_pos h3]
  · have h1' : ¬ strIn ("gdpr".toList) (lower fname) = true := by
      rw [h1]
      simp
    have h2' : ¬ strIn ("hipaa".toList) (lower fname) = true := by
      rw [h2]
      simp
    have h3' : ¬ strIn ("soc2".toList) (lower fname) = true := by
      rw [h3]
      simp
    rw [if_neg h1', if_neg h2', if_neg h3']

/-- Witness for the amended C7 at a concrete input. -/
theorem infer_doc_type_ordered_lower_witness :
    infer_doc_type ("my_gdpr.txt".toList) = "GDPR".toList :=
  (infer_doc_type_ordered_lower ("my_gdpr.txt".toList)).1 (by decide)

/-- C9: `infer_doc_type` is total (always one of the four tags), matching
is performed on the lowercased filename so case never affects the result,
and when several keywords occur the first in the fixed order gdpr, hipaa,
soc2 wins. -/
theorem infer_doc_type_total_ci_ordered (fname : Str) :
    (infer_doc_type fname = "GDPR".toList ∨ infer_doc_type fname = "HIPAA".toList ∨
      infer_doc_type fname = "SOC2".toList ∨ infer_doc_type fname = "General".toList) ∧
    (∀ g : Str, lower g = lower fname → infer_doc_type g = infer_doc_type fname) ∧
    (strIn ("gdpr".toList) (lower fname) = true →
        infer_doc_type fname = "GDPR".toList) ∧
    (strIn ("hipaa".toList) (lower fname) = true →
      strIn ("gdpr".toList) (lower fname) = false →
        infer_doc_type fname = "HIPAA".toList) := by
  refine ⟨?_, ?_, ?_, ?_⟩
  · unfold infer_doc_type
    by_cases h1 : strIn ("gdpr".toList) (lower fname) = true
    · rw [if_pos h1]
      tauto
    · rw [if_neg h1]
      by_cases h2 : strIn ("hipaa".toList) (lower fname) = true
      · rw [if_pos h2]
        tauto
      · rw [if_neg h2]
        by_cases h3 : strIn ("soc2".toList) (lower fname) = true
        · rw [if_pos h3]
          tauto
        · rw [if_neg h3]
          tauto
  · intro g hg
    unfold infer_doc_type
    rw [hg]
  · intro h1
    unfold infer_doc_type
    rw [if_pos h1]
  · intro h1 h2
    unfold infer_doc_type
    have h2' : ¬ strIn ("gdpr".toList) (lower fname) = true := by
      rw [h2]
      simp
    rw [if_neg h2', if_pos h1]

/-- Witness for C9 at a concrete input: a mixed-case filename containing
both keywords is classified by the first match, `"GDPR"`. -/
theorem infer_doc_type_total_ci_ordered_witness :
    infer_doc_type ("GDPR_and_hipaa.txt".toList) = "GDPR".toList :=
  (infer_doc_type_total_ci_ordered ("GDPR_and_hipaa.txt".toList)).2.2.1 (by decide)

end Setup
